import Mathlib

/-!
Verification of the go-lgbm LightGBM model loader and inference engine.

The Go source is shallowly embedded:

* `float64` values are modelled by `GFloat`: NaN, signed infinities, and
  finite values carried as exact fractions (`Q`).  Comparisons, truncation
  to `int`, and the special-value propagation of `+`/`/` follow IEEE-754;
  finite arithmetic is exact (rounding of doubles is not modelled, and
  neither is the sign of zero).
* Go `int` is modelled by `Int` (the 64-bit wraparound is irrelevant to the
  quantities involved); Go integer division/remainder truncate toward zero,
  hence `Int.tdiv` / `Int.tmod`.
* slice indexing and sub-slicing are total functions into `Option`; `none`
  models a Go runtime panic (index out of range), and `none` also models
  the implementation-defined float-to-int conversion of NaN/±Inf.
* the line-oriented text format is modelled as a `List String` of lines (the
  `bufio.Scanner` hands the Go code one line at a time); parsers return
  `Except LgbmError` mirroring the `error` results, with the consumed-rest
  of the line list made explicit.
* `tree.predictLeaf`'s unbounded `for` loop is modelled with explicit fuel:
  `predictLeafFuel`; termination of the Go loop corresponds to the
  existence of a fuel making the result `some`.
-/

/-- Exact fraction `num / den`: the carrier of finite float values.
Operations keep `den` positive; no normalisation is performed. -/
structure Q where
  num : Int
  den : Nat
  deriving DecidableEq, Repr

def qofInt (n : Int) : Q := ⟨n, 1⟩

def qzero : Q := qofInt 0

/-- `a <= b` for finite floats, by cross-multiplication. -/
def qle (a b : Q) : Bool := decide (a.num * b.den ≤ b.num * a.den)

/-- Exact sum of finite values (float rounding is not modelled). -/
def qadd (a b : Q) : Q := ⟨a.num * b.den + b.num * a.den, a.den * b.den⟩

/-- Exact quotient of finite values; the caller rules out `b.num = 0`. -/
def qdiv (a b : Q) : Q :=
  if b.num < 0 then ⟨-(a.num * b.den), (a.den : Int).natAbs * b.num.natAbs⟩
  else ⟨a.num * b.den, a.den * b.num.natAbs⟩

/-- Go `int(v)` for a finite `v`: truncation toward zero. -/
def qtrunc (a : Q) : Int := Int.tdiv a.num a.den

/-- The value of a `Q` as a rational number. -/
def qval (a : Q) : ℚ := (a.num : ℚ) / (a.den : ℚ)

/-- A `float64`: NaN, an infinity (`true` = `+Inf`), or a finite value. -/
inductive GFloat where
  | nan : GFloat
  | inf : Bool → GFloat
  | fin : Q → GFloat
  deriving DecidableEq, Repr

def GFloat.isNaN : GFloat → Bool
  | .nan => true
  | _ => false

/-- IEEE-754 `<=` on modelled floats: false whenever NaN is involved. -/
def gle : GFloat → GFloat → Bool
  | .nan, _ => false
  | _, .nan => false
  | .inf s, .inf t => !s || t
  | .inf s, .fin _ => !s
  | .fin _, .inf t => t
  | .fin a, .fin b => qle a b

/-- IEEE-754 addition on modelled floats (exact in the finite case). -/
def fadd : GFloat → GFloat → GFloat
  | .nan, _ => .nan
  | _, .nan => .nan
  | .inf s, .inf t => if s = t then .inf s else .nan
  | .inf s, .fin _ => .inf s
  | .fin _, .inf t => .inf t
  | .fin a, .fin b => .fin (qadd a b)

/-- IEEE-754 division on modelled floats (exact in the finite case;
the sign of zero is not modelled, an unsigned zero divisor acts as `+0`). -/
def fdiv : GFloat → GFloat → GFloat
  | .nan, _ => .nan
  | _, .nan => .nan
  | .inf _, .inf _ => .nan
  | .inf s, .fin q => if q.num < 0 then .inf (!s) else .inf s
  | .fin _, .inf _ => .fin qzero
  | .fin a, .fin q =>
    if q.num = 0 then (if a.num = 0 then .nan else .inf (decide (0 ≤ a.num)))
    else .fin (qdiv a q)

/-- Go `int(v)`: defined for finite values only (`none` models the
implementation-defined conversion of NaN and infinities). -/
def floatToInt : GFloat → Option Int
  | .fin a => some (qtrunc a)
  | _ => none

/-- Go slice indexing `l[i]`; `none` models the out-of-range panic. -/
def goIdx {α : Type} (l : List α) (i : Int) : Option α :=
  if i < 0 then none else l[i.toNat]?

/-- Go sub-slicing `l[s:e]`; `none` models the out-of-range panic. -/
def goSlice (l : List Nat) (s e : Int) : Option (List Nat) :=
  if 0 ≤ s ∧ s ≤ e ∧ e ≤ (l.length : Int) then
    some ((l.drop s.toNat).take (e - s).toNat)
  else none

/-- The `tree` struct of the Go source (inference-relevant fields).
`decisionTypes` entries are `uint8` values, `catThresholds` entries are
`uint32` bitset words; both are carried as `Nat`. -/
structure tree where
  numLeaves : Int
  splitFeatures : List Int
  thresholds : List GFloat
  decisionTypes : List Nat
  leftChildren : List Int
  rightChildren : List Int
  leafValues : List GFloat
  shrinkage : GFloat
  catBoundaries : List Int
  catThresholds : List Nat
  deriving DecidableEq, Repr

/-- `isCategoryInBitset` from the Go source: `wordIdx := category / 32`
(truncated division), `bitIdx := uint(category % 32)` (conversion of the
truncated remainder to an unsigned 64-bit count), with a `uint32` left
shift of 1 (zero once the count reaches 32).  A `wordIdx` at or past the
slice length answers `false`; a negative `wordIdx` panics (`none`). -/
def isCategoryInBitset (category : Int) (bitset : List Nat) : Option Bool :=
  let wordIdx := Int.tdiv category 32
  let bitIdx := ((Int.tmod category 32) % (2 ^ 64 : Int)).toNat
  if (bitset.length : Int) ≤ wordIdx then some false
  else do
    let w ← goIdx bitset wordIdx
    some (decide (w &&& ((1 <<< bitIdx) % 2 ^ 32) ≠ 0))

/-- One iteration of `predictLeaf`'s traversal loop, at internal node
`node ≥ 0`: the next child reference, or `none` for a panic. -/
def predictStep (t : tree) (features : List GFloat) (node : Int) : Option Int := do
  let featureIdx ← goIdx t.splitFeatures node
  let val ← goIdx features featureIdx
  let dt ← goIdx t.decisionTypes node
  let goLeft ←
    if val.isNaN then
      some (decide (dt &&& 2 ≠ 0))
    else if dt &&& 1 ≠ 0 then do
      let category ← floatToInt val
      let thr ← goIdx t.thresholds node
      let catIdx ← floatToInt thr
      let start ← goIdx t.catBoundaries catIdx
      let stop ← goIdx t.catBoundaries (catIdx + 1)
      let slice ← goSlice t.catThresholds start stop
      isCategoryInBitset category slice
    else do
      let thr ← goIdx t.thresholds node
      some (gle val thr)
  if goLeft then goIdx t.leftChildren node else goIdx t.rightChildren node

/-- The traversal loop of `predictLeaf`, with fuel: `while node >= 0` take a
step; at a negative reference return `leafValues[-(node+1)]`.  Exhausted
fuel yields `none`; the Go loop not terminating corresponds to `none` for
every fuel. -/
def predictLoop (t : tree) (features : List GFloat) : Nat → Int → Option GFloat
  | 0, _ => none
  | fuel + 1, node =>
    if 0 ≤ node then
      match predictStep t features node with
      | some next => predictLoop t features fuel next
      | none => none
    else
      goIdx t.leafValues (-(node + 1))

/-- `tree.predictLeaf` of the Go source (fuel-indexed). -/
def predictLeafFuel (t : tree) (features : List GFloat) (fuel : Nat) : Option GFloat :=
  predictLoop t features fuel 0

example : predictLeafFuel
    { numLeaves := 2, splitFeatures := [0], thresholds := [.fin ⟨5, 10⟩],
      decisionTypes := [0], leftChildren := [-1], rightChildren := [-2],
      leafValues := [.fin (qofInt 1), .fin (qofInt 2)], shrinkage := .fin (qofInt 1),
      catBoundaries := [], catThresholds := [] }
    [.fin ⟨3, 10⟩] 5 = some (.fin (qofInt 1)) := by decide

example : predictLeafFuel
    { numLeaves := 2, splitFeatures := [0], thresholds := [.fin ⟨5, 10⟩],
      decisionTypes := [0], leftChildren := [-1], rightChildren := [-2],
      leafValues := [.fin (qofInt 1), .fin (qofInt 2)], shrinkage := .fin (qofInt 1),
      catBoundaries := [], catThresholds := [] }
    [.nan] 5 = some (.fin (qofInt 2)) := by decide

example : predictLeafFuel
    { numLeaves := 2, splitFeatures := [0], thresholds := [.fin (qofInt 0)],
      decisionTypes := [1], leftChildren := [-1], rightChildren := [-2],
      leafValues := [.fin (qofInt 10), .fin (qofInt 20)], shrinkage := .fin (qofInt 1),
      catBoundaries := [0, 1], catThresholds := [5] }
    [.fin (qofInt 2)] 5 = some (.fin (qofInt 10)) := by decide

example : predictLeafFuel
    { numLeaves := 2, splitFeatures := [0], thresholds := [.fin (qofInt 0)],
      decisionTypes := [1], leftChildren := [-1], rightChildren := [-2],
      leafValues := [.fin (qofInt 10), .fin (qofInt 20)], shrinkage := .fin (qofInt 1),
      catBoundaries := [0, 1], catThresholds := [5] }
    [.fin (qofInt 1)] 5 = some (.fin (qofInt 20)) := by decide

/-- ASCII whitespace, the characters Go's parsers meet in model files
(`strings.TrimSpace`/`strings.Fields` handle full Unicode space; model
files only contain these). -/
def isWhite (c : Char) : Bool :=
  c = ' ' ∨ c = '\t' ∨ c = '\n' ∨ c = '\x0b' ∨ c = '\x0c' ∨ c = '\r'

/-- `strings.TrimSpace`. -/
def trimAsc (s : String) : String :=
  ⟨((s.data.dropWhile isWhite).reverse.dropWhile isWhite).reverse⟩

/-- Splitting a character list at whitespace runs, for `strings.Fields`
(`acc` holds the current token, reversed). -/
def fieldsChAux : List Char → List Char → List (List Char)
  | [], acc => if acc = [] then [] else [acc.reverse]
  | c :: cs, acc =>
    if isWhite c then
      if acc = [] then fieldsChAux cs [] else acc.reverse :: fieldsChAux cs []
    else fieldsChAux cs (c :: acc)

def fieldsCh (l : List Char) : List (List Char) := fieldsChAux l []

/-- `strings.Fields`. -/
def fieldsAsc (s : String) : List String := (fieldsCh s.data).map (fun l => ⟨l⟩)

/-- `strings.ToLower` (ASCII case mapping, all the mapping the recognised
keywords can meet). -/
def lowerAsc (s : String) : String := ⟨s.data.map Char.toLower⟩

/-- `strings.HasPrefix s pre`. -/
def strStarts (s pre : String) : Bool := decide (s.data.take pre.data.length = pre.data)

/-- Cutting a character list at the first occurrence of `c`. -/
def cutCh (l : List Char) (c : Char) : Option (List Char × List Char) :=
  match l with
  | [] => none
  | d :: ds => if d = c then some ([], ds) else (cutCh ds c).map (fun p => (d :: p.1, p.2))

/-- `strings.Cut s "="`; also `strings.SplitN s "=" 2` restricted to the
found case (the Go tree parser skips the line when no `=` is present). -/
def cutEq (s : String) : Option (String × String) :=
  (cutCh s.data '=').map (fun p => (⟨p.1⟩, ⟨p.2⟩))

def digitsToNatAux (l : List Char) (acc : Nat) : Option Nat :=
  match l with
  | [] => some acc
  | c :: cs => if c.isDigit then digitsToNatAux cs (acc * 10 + (c.toNat - '0'.toNat)) else none

/-- `strconv.Atoi`: an optional sign then one or more decimal digits
(64-bit overflow, irrelevant to the claims, is not modelled). -/
def atoi (s : String) : Option Int :=
  match s.data with
  | '+' :: ds => if ds = [] then none else (digitsToNatAux ds 0).map (fun n => (n : Int))
  | '-' :: ds => if ds = [] then none else (digitsToNatAux ds 0).map (fun n => -(n : Int))
  | ds => if ds = [] then none else (digitsToNatAux ds 0).map (fun n => (n : Int))

/-- The decimal part of `strconv.ParseFloat`: digits, an optional fraction,
an optional exponent; the value is exact (`Q`), double rounding is not
modelled.  Hex floats and digit-group underscores are not modelled. -/
def parseDec (l : List Char) (neg : Bool) : Option Q :=
  let ip := l.takeWhile Char.isDigit
  let r1 := l.dropWhile Char.isDigit
  let (fp, r2) :=
    match r1 with
    | '.' :: t => (t.takeWhile Char.isDigit, t.dropWhile Char.isDigit)
    | _ => (([] : List Char), r1)
  if ip = [] ∧ fp = [] then none
  else
    let mOpt :=
      match r2 with
      | 'e' :: t | 'E' :: t =>
        match t with
        | '+' :: u => (digitsToNatAux u 0).bind (fun n => if u = [] then none else some ((n : Int), ([] : List Char)))
        | '-' :: u => (digitsToNatAux u 0).bind (fun n => if u = [] then none else some ((-(n : Int)), ([] : List Char)))
        | u => (digitsToNatAux u 0).bind (fun n => if u = [] then none else some ((n : Int), ([] : List Char)))
      | r => some ((0 : Int), r)
    match mOpt with
    | some (e, []) =>
      (digitsToNatAux (ip ++ fp) 0).map (fun m =>
        let sm : Int := if neg then -(m : Int) else (m : Int)
        if 0 ≤ e then ⟨sm * (10 : Int) ^ e.toNat, 10 ^ fp.length⟩
        else ⟨sm, 10 ^ fp.length * 10 ^ (-e).toNat⟩)
    | _ => none

/-- `strconv.ParseFloat` (value-exact model): special values, then the
decimal grammar. -/
def parseFloatG (s : String) : Option GFloat :=
  match s.data with
  | [] => none
  | l =>
    let (neg, body) :=
      match l with
      | '+' :: r => (false, r)
      | '-' :: r => (true, r)
      | r => (false, r)
    let low := body.map Char.toLower
    if low = "inf".data ∨ low = "infinity".data then some (.inf !neg)
    else if l.map Char.toLower = "nan".data then some .nan
    else (parseDec body neg).map GFloat.fin

/-- `parseInts`: a space-separated list, each via `strconv.Atoi`. -/
def parseInts (s : String) : Option (List Int) := (fieldsAsc s).mapM atoi

/-- `parseFloat64s`: a space-separated list, each via `strconv.ParseFloat`. -/
def parseFloat64s (s : String) : Option (List GFloat) := (fieldsAsc s).mapM parseFloatG

/-- `strconv.ParseUint` with base 10 and a bit size: unsigned digits,
value below `2 ^ bits`. -/
def parseUintSized (s : String) (bits : Nat) : Option Nat :=
  match s.data with
  | [] => none
  | ds => (digitsToNatAux ds 0).bind (fun n => if n < 2 ^ bits then some n else none)

/-- `parseUint8s`. -/
def parseUint8s (s : String) : Option (List Nat) :=
  (fieldsAsc s).mapM (fun f => parseUintSized f 8)

/-- `parseUint32s`. -/
def parseUint32s (s : String) : Option (List Nat) :=
  (fieldsAsc s).mapM (fun f => parseUintSized f 32)

example : atoi "-42" = some (-42) := by decide
example : atoi "" = none := by decide
example : atoi "4x" = none := by decide
example : parseFloatG "0.123" = some (.fin ⟨123, 1000⟩) := by decide
example : parseFloatG "-1.5e1" = some (.fin ⟨-150, 10⟩) := by decide
example : parseFloatG "0.5" = some (.fin ⟨5, 10⟩) := by decide
example : fieldsAsc " 1 2  0 " = ["1", "2", "0"] := by decide
example : trimAsc "  tree " = "tree" := by decide
example : cutEq "num_leaves=4" = some ("num_leaves", "4") := by decide

/-- The error taxonomy: `ModelError` (wrapping `ErrInvalidModel` with a
detail string) and `VersionError` (wrapping `ErrUnsupportedVersion` with
the detected version string). -/
inductive LgbmError where
  | modelErr (detail : String)
  | versionErr (version : String)
  deriving DecidableEq, Repr

instance {ε α : Type} [DecidableEq ε] [DecidableEq α] : DecidableEq (Except ε α)
  | .ok a, .ok b => if h : a = b then .isTrue (by rw [h]) else .isFalse (by simp [h])
  | .error a, .error b => if h : a = b then .isTrue (by rw [h]) else .isFalse (by simp [h])
  | .ok _, .error _ => .isFalse (by simp)
  | .error _, .ok _ => .isFalse (by simp)

/-- `errors.Is err ErrInvalidModel` over the taxonomy. -/
def isInvalidModel : LgbmError → Bool
  | .modelErr _ => true
  | .versionErr _ => false

/-- `errors.Is err ErrUnsupportedVersion` over the taxonomy. -/
def isUnsupportedVersion : LgbmError → Bool
  | .modelErr _ => false
  | .versionErr _ => true

/-- The `header` struct of the Go source. -/
structure header where
  version : String
  numClass : Int
  numTreePerIteration : Int
  labelIndex : Int
  maxFeatureIdx : Int
  objective : String
  averageOutput : Bool
  featureNames : List String
  treeSizes : List Int
  deriving DecidableEq, Repr

def initHeader : header :=
  { version := "", numClass := 0, numTreePerIteration := 0, labelIndex := 0,
    maxFeatureIdx := 0, objective := "", averageOutput := false,
    featureNames := [], treeSizes := [] }

/-- One `key=value` pair of `parseHeader`'s scan loop (the detail strings
for unparsable numbers carry the offending value where Go embeds the
`strconv` error text). -/
def headerSetKV (h : header) (key value : String) : Except LgbmError header :=
  if key = "version" then .ok { h with version := value }
  else if key = "num_class" then
    match atoi value with
    | some v => .ok { h with numClass := v }
    | none => .error (.modelErr ("invalid num_class: " ++ value))
  else if key = "num_tree_per_iteration" then
    match atoi value with
    | some v => .ok { h with numTreePerIteration := v }
    | none => .error (.modelErr ("invalid num_tree_per_iteration: " ++ value))
  else if key = "label_index" then
    match atoi value with
    | some v => .ok { h with labelIndex := v }
    | none => .error (.modelErr ("invalid label_index: " ++ value))
  else if key = "max_feature_idx" then
    match atoi value with
    | some v => .ok { h with maxFeatureIdx := v }
    | none => .error (.modelErr ("invalid max_feature_idx: " ++ value))
  else if key = "objective" then .ok { h with objective := value }
  else if key = "feature_names" then .ok { h with featureNames := fieldsAsc value }
  else if key = "tree_sizes" then
    match (fieldsAsc value).mapM atoi with
    | some vs => .ok { h with treeSizes := vs }
    | none => .error (.modelErr ("invalid tree_sizes: " ++ value))
  else .ok h

/-- `parseHeader`'s key=value loop: lines until a blank one; a line with no
`=` only matters as the presence-only flag `average_output`.  Returns the
header and the unconsumed lines. -/
def headerScanLines : List String → header → Except LgbmError (header × List String)
  | [], h => .ok (h, [])
  | line :: rest, h =>
    let l := trimAsc line
    if l = "" then .ok (h, rest)
    else
      match cutEq l with
      | some (k, v) =>
        match headerSetKV h (trimAsc k) (trimAsc v) with
        | .ok h2 => headerScanLines rest h2
        | .error e => .error e
      | none =>
        headerScanLines rest (if l = "average_output" then { h with averageOutput := true } else h)

/-- `parseHeader`'s trailing validation: required fields, the version tag,
and the `num_tree_per_iteration` default. -/
def validateHeader (h : header) : Except LgbmError header :=
  if h.version = "" then .error (.modelErr "missing required field: version")
  else if h.numClass = 0 then .error (.modelErr "missing required field: num_class")
  else if h.maxFeatureIdx = 0 then .error (.modelErr "missing required field: max_feature_idx")
  else if !(strStarts h.version "v3" || strStarts h.version "v4") then
    .error (.versionErr h.version)
  else if h.numTreePerIteration = 0 then .ok { h with numTreePerIteration := h.numClass }
  else .ok h

/-- `parseHeader` of the Go source: the `tree` magic line, the key=value
block, then validation.  Returns the header and the unconsumed lines. -/
def parseHeaderSc (input : List String) : Except LgbmError (header × List String) :=
  match input with
  | [] => .error (.modelErr "empty model file")
  | first :: rest =>
    if trimAsc first = "tree" then
      match headerScanLines rest initHeader with
      | .ok (h, rest2) => (validateHeader h).map (fun h2 => (h2, rest2))
      | .error e => .error e
    else .error (.modelErr ("expected 'tree' magic line, got: " ++ trimAsc first))

def parseHeader (input : List String) : Except LgbmError header :=
  (parseHeaderSc input).map Prod.fst

/-- The zero `tree` value with `parseTree`'s default shrinkage of 1.0. -/
def initTree : tree :=
  { numLeaves := 0, splitFeatures := [], thresholds := [], decisionTypes := [],
    leftChildren := [], rightChildren := [], leafValues := [],
    shrinkage := .fin (qofInt 1), catBoundaries := [], catThresholds := [] }

/-- One `key=value` pair of `parseTree`'s scan loop. -/
def treeSetKV (tr : tree) (key value : String) : Except LgbmError tree :=
  if key = "num_leaves" then
    match atoi value with
    | some v => .ok { tr with numLeaves := v }
    | none => .error (.modelErr ("invalid num_leaves: " ++ value))
  else if key = "num_cat" then
    match atoi value with
    | some _ => .ok tr
    | none => .error (.modelErr ("invalid num_cat: " ++ value))
  else if key = "split_feature" then
    if value = "" then .ok tr
    else
      match parseInts value with
      | some vs => .ok { tr with splitFeatures := vs }
      | none => .error (.modelErr ("invalid split_feature: " ++ value))
  else if key = "split_gain" then .ok tr
  else if key = "threshold" then
    if value = "" then .ok tr
    else
      match parseFloat64s value with
      | some vs => .ok { tr with thresholds := vs }
      | none => .error (.modelErr ("invalid threshold: " ++ value))
  else if key = "decision_type" then
    if value = "" then .ok tr
    else
      match parseUint8s value with
      | some vs => .ok { tr with decisionTypes := vs }
      | none => .error (.modelErr ("invalid decision_type: " ++ value))
  else if key = "left_child" then
    if value = "" then .ok tr
    else
      match parseInts value with
      | some vs => .ok { tr with leftChildren := vs }
      | none => .error (.modelErr ("invalid left_child: " ++ value))
  else if key = "right_child" then
    if value = "" then .ok tr
    else
      match parseInts value with
      | some vs => .ok { tr with rightChildren := vs }
      | none => .error (.modelErr ("invalid right_child: " ++ value))
  else if key = "leaf_value" then
    if value = "" then .ok tr
    else
      match parseFloat64s value with
      | some vs => .ok { tr with leafValues := vs }
      | none => .error (.modelErr ("invalid leaf_value: " ++ value))
  else if key = "leaf_weight" ∨ key = "leaf_count" ∨ key = "internal_value" ∨
      key = "internal_weight" ∨ key = "internal_count" then .ok tr
  else if key = "shrinkage" then
    match parseFloatG value with
    | some v => .ok { tr with shrinkage := v }
    | none => .error (.modelErr ("invalid shrinkage: " ++ value))
  else if key = "cat_boundaries" then
    if value = "" then .ok tr
    else
      match parseInts value with
      | some vs => .ok { tr with catBoundaries := vs }
      | none => .error (.modelErr ("invalid cat_boundaries: " ++ value))
  else if key = "cat_threshold" then
    if value = "" then .ok tr
    else
      match parseUint32s value with
      | some vs => .ok { tr with catThresholds := vs }
      | none => .error (.modelErr ("invalid cat_threshold: " ++ value))
  else .ok tr

/-- `parseTree`'s key=value loop: lines until a blank one; lines with no
`=` are skipped.  Returns the tree and the unconsumed lines. -/
def treeScanLines : List String → tree → Except LgbmError (tree × List String)
  | [], tr => .ok (tr, [])
  | line :: rest, tr =>
    let l := trimAsc line
    if l = "" then .ok (tr, rest)
    else
      match cutEq l with
      | some (k, v) =>
        match treeSetKV tr (trimAsc k) (trimAsc v) with
        | .ok tr2 => treeScanLines rest tr2
        | .error e => .error e
      | none => treeScanLines rest tr

def splitCountMsg (got expected : Int) : String :=
  "split_feature count mismatch: got " ++ toString got ++ ", expected " ++
    toString expected ++ " (num_leaves-1)"

def leafCountMsg (got expected : Int) : String :=
  "leaf_value count mismatch: got " ++ toString got ++ ", expected " ++
    toString expected ++ " (num_leaves)"

/-- `parseTree`'s trailing array-length validation (the Go source checks
only the `split_feature` and `leaf_value` counts). -/
def validateTree (tr : tree) : Except LgbmError tree :=
  let expectedSplitCount := tr.numLeaves - 1
  if (tr.splitFeatures.length : Int) ≠ expectedSplitCount then
    .error (.modelErr (splitCountMsg tr.splitFeatures.length expectedSplitCount))
  else if (tr.leafValues.length : Int) ≠ tr.numLeaves then
    .error (.modelErr (leafCountMsg tr.leafValues.length tr.numLeaves))
  else .ok tr

/-- `parseTree` of the Go source: scan, then validate.  Returns the tree
and the unconsumed lines. -/
def parseTreeSc (input : List String) : Except LgbmError (tree × List String) :=
  match treeScanLines input initTree with
  | .ok (tr, rest) => (validateTree tr).map (fun t => (t, rest))
  | .error e => .error e

def parseTree (input : List String) : Except LgbmError tree :=
  (parseTreeSc input).map Prod.fst

/-- The `ObjectiveType` enumeration. -/
inductive ObjectiveType where
  | binary | regression | multiclass | ranking | poisson | gamma | tweedie
  deriving DecidableEq, Repr

/-- `parseObjective`: the lower-cased first whitespace-delimited token of
the objective string selects the kind; an empty string and every
unrecognised token yield `regression`; no input is an error. -/
def parseObjective (s : String) : Except LgbmError ObjectiveType :=
  match fieldsAsc s with
  | [] => .ok .regression
  | w :: _ =>
    let t := lowerAsc w
    if t = "binary" ∨ t = "cross_entropy" then .ok .binary
    else if t = "multiclass" ∨ t = "multiclassova" ∨ t = "multi_logloss" ∨
        t = "softmax" ∨ t = "multiclass_ova" ∨ t = "ova" ∨ t = "ovr" then .ok .multiclass
    else if t = "lambdarank" ∨ t = "rank_xendcg" ∨ t = "rank" then .ok .ranking
    else if t = "poisson" then .ok .poisson
    else if t = "gamma" then .ok .gamma
    else if t = "tweedie" then .ok .tweedie
    else if t = "regression" ∨ t = "regression_l2" ∨ t = "regression_l1" ∨
        t = "mean_squared_error" ∨ t = "mse" ∨ t = "l2" ∨ t = "l1" ∨
        t = "mean_absolute_error" ∨ t = "mae" ∨ t = "huber" ∨ t = "fair" ∨
        t = "quantile" ∨ t = "mape" ∨ t = "custom" then .ok .regression
    else .ok .regression

/-- The four transform functions, by name (their `float64` bodies are
floating-point and are not modelled here). -/
inductive TransformKind where
  | identity | sigmoid | softmax | exponential
  deriving DecidableEq, Repr

/-- `transformForObjective`. -/
def transformForObjective : ObjectiveType → TransformKind
  | .binary => .sigmoid
  | .multiclass => .softmax
  | .poisson => .exponential
  | .gamma => .exponential
  | .tweedie => .exponential
  | _ => .identity

/-- The `Model` struct of the Go source (the transform held by kind). -/
structure Model where
  version : String
  numClasses : Int
  numTreesPerIteration : Int
  numFeatures : Int
  objective : ObjectiveType
  averageOutput : Bool
  trees : List tree
  featureNames : List String
  transform : TransformKind
  deriving DecidableEq, Repr

/-- The tree-block scan only consumes lines: what it leaves is no longer
than what it was given (so `parseModel`'s loop terminates). -/
theorem treeScanLines_rest_le (ls : List String) :
    ∀ tr tr2 rest2, treeScanLines ls tr = .ok (tr2, rest2) → rest2.length ≤ ls.length := by
  induction ls with
  | nil =>
    intro tr tr2 rest2 h
    simp only [treeScanLines, Except.ok.injEq, Prod.mk.injEq] at h
    simp [← h.2]
  | cons line rest ih =>
    intro tr tr2 rest2 h
    simp only [treeScanLines] at h
    split at h
    · simp only [Except.ok.injEq, Prod.mk.injEq] at h
      simp [← h.2, Nat.le_succ_of_le]
    · split at h
      · split at h
        · exact Nat.le_succ_of_le (ih _ _ _ h)
        · exact absurd h (by simp)
      · exact Nat.le_succ_of_le (ih _ _ _ h)

theorem parseTreeSc_rest_le (ls : List String) (tr : tree) (rest2 : List String)
    (h : parseTreeSc ls = .ok (tr, rest2)) : rest2.length ≤ ls.length := by
  unfold parseTreeSc at h
  split at h
  · rename_i tr0 rest0 heq
    have : rest2 = rest0 := by
      unfold validateTree Except.map at h
      split at h <;> simp_all
    exact this ▸ treeScanLines_rest_le ls _ _ _ heq
  · exact absurd h (by simp)

/-- `parseModel`'s tree loop: skip blank lines, stop at a terminator line,
parse a block after each `Tree=` line.  The loop always consumes at least
one line per iteration and the block parser only consumes lines
(`parseTreeSc_rest_le`), so with the line count as structural fuel the
zero-fuel branch is never reached. -/
def scanTreesF : Nat → List String → List tree → Except LgbmError (List tree)
  | 0, _, acc => .ok acc
  | _ + 1, [], acc => .ok acc
  | fuel + 1, line :: rest, acc =>
    let l := trimAsc line
    if l = "" then scanTreesF fuel rest acc
    else if strStarts l "end of trees" || strStarts l "feature_names" ||
        strStarts l "feature_importances" || strStarts l "feature importances" ||
        strStarts l "parameters" then .ok acc
    else if strStarts l "Tree=" then
      match parseTreeSc rest with
      | .ok (tr, rest2) => scanTreesF fuel rest2 (acc ++ [tr])
      | .error e => .error e
    else scanTreesF fuel rest acc

def scanTrees (input : List String) (acc : List tree) : Except LgbmError (List tree) :=
  scanTreesF input.length input acc

/-- `parseModel` of the Go source: header, tree loop, cross-tree
validation, objective resolution, assembly of the immutable `Model`. -/
def parseModelLines (input : List String) : Except LgbmError Model :=
  match parseHeaderSc input with
  | .error e => .error e
  | .ok (h, rest) =>
    match scanTrees rest [] with
    | .error e => .error e
    | .ok trees =>
      if trees.length = 0 then .error (.modelErr "model has no trees")
      else if Int.tmod (trees.length : Int) h.numTreePerIteration ≠ 0 then
        .error (.modelErr "tree count not a multiple of num_tree_per_iteration")
      else
        match parseObjective h.objective with
        | .error e => .error e
        | .ok objective =>
          .ok { version := h.version, numClasses := h.numClass,
                numTreesPerIteration := h.numTreePerIteration,
                numFeatures := h.maxFeatureIdx + 1, objective := objective,
                averageOutput := h.averageOutput, trees := trees,
                featureNames := h.featureNames,
                transform := transformForObjective objective }

example : parseHeader ["tree", "version=v3", "num_class=1", "max_feature_idx=9", ""] =
    .ok { version := "v3", numClass := 1, numTreePerIteration := 1, labelIndex := 0,
          maxFeatureIdx := 9, objective := "", averageOutput := false,
          featureNames := [], treeSizes := [] } := by decide

example : parseHeader ["tree", "version=v2.0.0", "num_class=1", "max_feature_idx=5", ""] =
    .error (.versionErr "v2.0.0") := by decide

example : (parseTree ["num_leaves=2", "split_feature=0", "threshold=0.5",
    "decision_type=0", "left_child=-1", "right_child=-2", "leaf_value=1 2", ""]).isOk = true := by decide

example : (parseModelLines ["tree", "version=v3", "num_class=1", "max_feature_idx=1", "",
    "Tree=0", "num_leaves=2", "split_feature=0", "threshold=0.5", "decision_type=0",
    "left_child=-1", "right_child=-2", "leaf_value=1 2", "", "end of trees"]).isOk = true := by decide

/-- `Model.predictRaw` of the Go source: a zero vector of
`numTreesPerIteration` slots; trees up to `maxTrees` are evaluated in
order, tree `i` adding into slot `i % nGroups`; an average-output model
finally divides each slot by `float64(maxTrees / nGroups)`.  A negative
slot count models `make`'s panic, a zero group count the `i % 0` panic. -/
def predictRaw (m : Model) (features : List GFloat) (nEstimators : Int) (fuel : Nat) :
    Option (List GFloat) :=
  let nGroups := m.numTreesPerIteration
  if nGroups < 0 then none
  else
    let maxTrees : Int :=
      if 0 < nEstimators ∧ nEstimators * nGroups < (m.trees.length : Int) then
        nEstimators * nGroups
      else (m.trees.length : Int)
    do
      let raw ← (List.range maxTrees.toNat).foldlM (fun (acc : List GFloat) (i : Nat) =>
          if nGroups = 0 then none
          else do
            let tr ← goIdx m.trees (i : Int)
            let v ← predictLeafFuel tr features fuel
            let old ← goIdx acc (Int.tmod (i : Int) nGroups)
            pure (acc.set (Int.tmod (i : Int) nGroups).toNat (fadd old v)))
        (List.replicate nGroups.toNat (GFloat.fin qzero))
      if m.averageOutput ∧ 0 < maxTrees then
        pure (raw.map (fun x => fdiv x (GFloat.fin (qofInt (Int.tdiv maxTrees nGroups)))))
      else pure raw

/-- Modelled from the spec: the raw-score accumulation as §4.6 words it —
a vector of `trees_per_round` slots starting at zero; trees up to
`min(ensemble_tree_count, requested_limit * trees_per_round)` (all when
the limit is 0) are used, tree `i` contributing its leaf value to slot
`i mod trees_per_round`; an average-output ensemble divides every slot by
the number of boosting rounds actually used. -/
def predictRawSpec (m : Model) (features : List GFloat) (nEstimators : Int) (fuel : Nat) :
    Option (List GFloat) :=
  let k := m.numTreesPerIteration
  let total := (m.trees.length : Int)
  let used := if nEstimators = 0 then total else min total (nEstimators * k)
  let rounds := Int.tdiv used k
  do
    let slots ← (List.range k.toNat).mapM (fun (j : Nat) => do
        let contrib ← ((List.range used.toNat).filter (fun i => i % k.toNat == j)).mapM
          (fun (i : Nat) => do
            let tr ← goIdx m.trees (i : Int)
            predictLeafFuel tr features fuel)
        pure (contrib.foldl fadd (GFloat.fin qzero)))
    if m.averageOutput ∧ 0 < used then
      pure (slots.map (fun x => fdiv x (GFloat.fin (qofInt rounds))))
    else pure slots

/-- Modelled from the spec: categorical membership as §4.5 words it — the
category routes left iff bit `category mod 32` of word `category div 32`
is set in the node's bitset slice; a word index at or beyond the slice
routes right. -/
def catMemberSpec (category : Nat) (slice : List Nat) : Bool :=
  match slice[category / 32]? with
  | none => false
  | some w => w.testBit (category % 32)

/-- A child reference of internal node `node` is valid: a strictly larger
internal index below the internal count, or a leaf whose decoded index
`-(c+1)` is below the leaf count. -/
def childOk (nInternal : Nat) (numLeaves : Int) (node : Nat) (c : Int) : Bool :=
  if 0 ≤ c then decide ((node : Int) < c) && decide (c < (nInternal : Int))
  else decide (-(c + 1) < numLeaves)

/-- A categorical node carries a finite, non-negative bitset index whose
boundary pair selects an in-range slice of the shared bitset words. -/
def catNodeOk (t : tree) (i : Nat) : Bool :=
  match t.thresholds[i]? with
  | some (.fin q) =>
    let catIdx := qtrunc q
    decide (0 ≤ catIdx) &&
      (match goIdx t.catBoundaries catIdx, goIdx t.catBoundaries (catIdx + 1) with
       | some s, some e =>
         decide (0 ≤ s) && decide (s ≤ e) && decide (e ≤ (t.catThresholds.length : Int))
       | _, _ => false)
  | _ => false

/-- Structural validity of internal node `i` (never checked by assembly). -/
def nodeOk (t : tree) (nFeat : Nat) (i : Nat) : Bool :=
  (match t.splitFeatures[i]? with
   | some fi => decide (0 ≤ fi) && decide (fi < (nFeat : Int))
   | none => false) &&
  (match t.leftChildren[i]? with
   | some c => childOk t.splitFeatures.length t.numLeaves i c
   | none => false) &&
  (match t.rightChildren[i]? with
   | some c => childOk t.splitFeatures.length t.numLeaves i c
   | none => false) &&
  (match t.decisionTypes[i]? with
   | some dt => if dt &&& 1 ≠ 0 then catNodeOk t i else true
   | none => false)

/-- Structural validity of a whole tree over `nFeat` features: the §3
invariants (array lengths tied to the leaf count, children in range and
forward-pointing, categorical slices in range). -/
def wfTree (t : tree) (nFeat : Nat) : Bool :=
  let nInternal := t.splitFeatures.length
  decide (t.numLeaves = (nInternal : Int) + 1) &&
  decide (t.thresholds.length = nInternal) &&
  decide (t.decisionTypes.length = nInternal) &&
  decide (t.leftChildren.length = nInternal) &&
  decide (t.rightChildren.length = nInternal) &&
  decide ((t.leafValues.length : Int) = t.numLeaves) &&
  (List.range nInternal).all (fun i => nodeOk t nFeat i)

/-- The feature read at categorical node `i` avoids the conversions Go
leaves implementation-defined: NaN, or a finite value whose truncation
stays above `-32` (so the bitset word index cannot go negative). -/
def featValOkForNode (t : tree) (f : List GFloat) (i : Nat) : Bool :=
  match t.decisionTypes[i]?, t.splitFeatures[i]? with
  | some dt, some fi =>
    if dt &&& 1 ≠ 0 then
      match goIdx f fi with
      | some .nan => true
      | some (.fin q) => decide (-32 < qtrunc q)
      | _ => false
    else true
  | _, _ => false

/-- A feature vector of the tree's feature count whose values keep every
categorical read well-defined. -/
def featOk (t : tree) (f : List GFloat) (nFeat : Nat) : Bool :=
  decide (f.length = nFeat) &&
    (List.range t.splitFeatures.length).all (fun i => featValOkForNode t f i)

example : catMemberSpec 2 [5] = true := by decide
example : catMemberSpec 1 [5] = false := by decide
example : catMemberSpec 64 [5] = false := by decide
example : wfTree
    { numLeaves := 2, splitFeatures := [0], thresholds := [.fin ⟨5, 10⟩],
      decisionTypes := [0], leftChildren := [-1], rightChildren := [-2],
      leafValues := [.fin (qofInt 1), .fin (qofInt 2)], shrinkage := .fin (qofInt 1),
      catBoundaries := [], catThresholds := [] } 1 = true := by decide

/-- The single-leaf tree block of the repository's own parser test
(`TestParseTree_SingleLeaf`). -/
def singleLeafLines : List String :=
  ["num_leaves=1", "num_cat=0", "split_feature=", "split_gain=", "threshold=",
   "decision_type=", "left_child=", "right_child=", "leaf_value=0.123",
   "leaf_weight=50.0", "leaf_count=100", "internal_value=", "internal_weight=",
   "internal_count=", "is_linear=0", "shrinkage=1.0", ""]

/-- The tree that block parses to: one leaf of value 0.123, no internal
nodes. -/
def singleLeafTree : tree :=
  { numLeaves := 1, splitFeatures := [], thresholds := [], decisionTypes := [],
    leftChildren := [], rightChildren := [], leafValues := [.fin ⟨123, 1000⟩],
    shrinkage := .fin ⟨10, 10⟩, catBoundaries := [], catThresholds := [] }

/-- C1: a single-leaf tree (no internal nodes) parses successfully, but
`predictLeaf` never returns its sole leaf value: the traversal loop is
entered at root index 0 and the first array read `splitFeatures[0]`
panics (modelled `none`) for every input vector — against the spec, which
requires the leaf value unconditionally. -/
theorem singleLeaf_predictLeaf_panics :
    parseTree singleLeafLines = .ok singleLeafTree ∧
    singleLeafTree.numLeaves = 1 ∧
    singleLeafTree.leafValues = [.fin ⟨123, 1000⟩] ∧
    ∀ (features : List GFloat) (fuel : Nat),
      predictLeafFuel singleLeafTree features fuel = none := by
  refine ⟨by decide, by decide, by decide, ?_⟩
  intro features fuel
  cases fuel with
  | zero => rfl
  | succ n => rfl

/-- A tree block whose `threshold` array is empty while `num_leaves=2`
demands one entry (the other arrays are consistent). -/
def mismatchedThresholdLines : List String :=
  ["num_leaves=2", "split_feature=0", "threshold=", "decision_type=0",
   "left_child=-1", "right_child=-2", "leaf_value=1 2", ""]

/-- What that block parses to: an empty `thresholds` array survives. -/
def mismatchedThresholdTree : tree :=
  { numLeaves := 2, splitFeatures := [0], thresholds := [], decisionTypes := [0],
    leftChildren := [-1], rightChildren := [-2],
    leafValues := [.fin ⟨1, 1⟩, .fin ⟨2, 1⟩], shrinkage := .fin (qofInt 1),
    catBoundaries := [], catThresholds := [] }

/-- C2 counterexample: `parseTree` accepts a block whose `threshold` array
has 0 entries although `leaf_count − 1 = 1`, returning the tree with no
error — the claimed `InvalidModel` failure for a threshold-count mismatch
does not happen (only `split_feature` and `leaf_value` counts are
checked). -/
theorem parseTree_accepts_short_threshold :
    parseTree mismatchedThresholdLines = .ok mismatchedThresholdTree ∧
    mismatchedThresholdTree.thresholds.length = 0 ∧
    mismatchedThresholdTree.numLeaves - 1 = 1 := by decide

/-- C2 (amended): after a successful scan of the block's lines,
`parseTree` fails with `InvalidModel` — naming the array and the
expected-vs-actual lengths — exactly when the `split_feature` count
differs from `leaf_count − 1` or the `leaf_value` count differs from
`leaf_count`; the threshold, decision-type and child array lengths are
not validated, and when those two counts match the parsed tree is
returned without error. -/
theorem parseTree_checks_split_and_leaf_counts :
    ∀ (ls : List String) (tr : tree) (rest : List String),
      treeScanLines ls initTree = .ok (tr, rest) →
      (((tr.splitFeatures.length : Int) = tr.numLeaves - 1 ∧
          (tr.leafValues.length : Int) = tr.numLeaves) →
        parseTree ls = .ok tr) ∧
      ((tr.splitFeatures.length : Int) ≠ tr.numLeaves - 1 →
        parseTree ls =
          .error (.modelErr (splitCountMsg tr.splitFeatures.length (tr.numLeaves - 1)))) ∧
      ((tr.splitFeatures.length : Int) = tr.numLeaves - 1 →
        (tr.leafValues.length : Int) ≠ tr.numLeaves →
        parseTree ls =
          .error (.modelErr (leafCountMsg tr.leafValues.length tr.numLeaves))) := by
  intro ls tr rest h
  unfold parseTree parseTreeSc
  rw [h]
  dsimp only
  unfold validateTree
  refine ⟨?_, ?_, ?_⟩
  · intro hok
    rw [if_neg (fun hc => hc hok.1), if_neg (fun hc => hc hok.2)]
    rfl
  · intro hs
    rw [if_pos hs]
    rfl
  · intro hs hl
    rw [if_neg (fun hc => hc hs), if_pos hl]
    rfl

/-- A consistent two-leaf block, for applying the amended C2 theorem. -/
def consistentTreeLines : List String :=
  ["num_leaves=2", "split_feature=0", "threshold=0.5", "decision_type=0",
   "left_child=-1", "right_child=-2", "leaf_value=1 2", ""]

def consistentTree : tree :=
  { numLeaves := 2, splitFeatures := [0], thresholds := [.fin ⟨5, 10⟩],
    decisionTypes := [0], leftChildren := [-1], rightChildren := [-2],
    leafValues := [.fin ⟨1, 1⟩, .fin ⟨2, 1⟩], shrinkage := .fin (qofInt 1),
    catBoundaries := [], catThresholds := [] }

/-- C2 witness: the amended theorem applied to a concrete consistent
block. -/
theorem parseTree_checks_counts_witness :
    parseTree consistentTreeLines = .ok consistentTree :=
  (parseTree_checks_split_and_leaf_counts consistentTreeLines consistentTree []
    (by decide)).1 (by decide)

/-- C7: whenever the required header fields are present (version nonempty,
`num_class` and `max_feature_idx` nonzero) but the version begins with
neither `v3` nor `v4`, validation fails with the `UnsupportedVersion`
error carrying exactly the offending version string; the error satisfies
`errors.Is(·, ErrUnsupportedVersion)` and not `errors.Is(·,
ErrInvalidModel)`; in particular a `version=v2` model fails end-to-end
with `UnsupportedVersion` carrying `"v2"`. -/
theorem parseHeader_rejects_unsupported_version :
    (∀ h : header, h.version ≠ "" → h.numClass ≠ 0 → h.maxFeatureIdx ≠ 0 →
      strStarts h.version "v3" = false → strStarts h.version "v4" = false →
      validateHeader h = .error (.versionErr h.version)) ∧
    parseHeader ["tree", "version=v2", "num_class=1", "max_feature_idx=5", ""] =
      .error (.versionErr "v2") ∧
    isUnsupportedVersion (.versionErr "v2") = true ∧
    isInvalidModel (.versionErr "v2") = false := by
  refine ⟨?_, by decide, by decide, by decide⟩
  intro h hv hn hm h3 h4
  unfold validateHeader
  rw [if_neg hv, if_neg hn, if_neg hm, if_pos (by rw [h3, h4]; rfl)]

/-- C10: a required integer header key that is explicitly present with
value 0 is indistinguishable from an absent one — validation reports it
as a missing required field with an `InvalidModel` error; in particular a
single-feature model declaring `max_feature_idx=0` cannot be loaded, and
`num_class=0` fails the same way. -/
theorem parseHeader_zero_required_field :
    (∀ h : header, h.version ≠ "" → h.numClass = 0 →
      validateHeader h = .error (.modelErr "missing required field: num_class")) ∧
    (∀ h : header, h.version ≠ "" → h.numClass ≠ 0 → h.maxFeatureIdx = 0 →
      validateHeader h = .error (.modelErr "missing required field: max_feature_idx")) ∧
    parseHeader ["tree", "version=v3", "num_class=1", "max_feature_idx=0", ""] =
      .error (.modelErr "missing required field: max_feature_idx") ∧
    parseHeader ["tree", "version=v3", "num_class=0", "max_feature_idx=5", ""] =
      .error (.modelErr "missing required field: num_class") ∧
    isInvalidModel (.modelErr "missing required field: max_feature_idx") = true := by
  refine ⟨?_, ?_, by decide, by decide, by decide⟩
  · intro h hv hn
    unfold validateHeader
    rw [if_neg hv, if_pos hn]
  · intro h hv hn hm
    unfold validateHeader
    rw [if_neg hv, if_neg hn, if_pos hm]

/-- `strings.Fields` never produces an empty token. -/
theorem fieldsChAux_ne_nil : ∀ (l acc : List Char), ∀ x ∈ fieldsChAux l acc, x ≠ [] := by
  intro l
  induction l with
  | nil =>
    intro acc x hx
    unfold fieldsChAux at hx
    split at hx
    · simp at hx
    · rename_i hacc
      simp only [List.mem_singleton] at hx
      simp [hx, hacc]
  | cons c cs ih =>
    intro acc x hx
    unfold fieldsChAux at hx
    split at hx
    · split at hx
      · exact ih [] x hx
      · rename_i hacc
        rcases List.mem_cons.mp hx with h | h
        · simp [h, hacc]
        · exact ih [] x h
    · exact ih (c :: acc) x hx

/-- A token of `strings.Fields` is a nonempty string. -/
theorem mem_fieldsAsc_ne_empty (s w : String) (hw : w ∈ fieldsAsc s) : w ≠ "" := by
  unfold fieldsAsc fieldsCh at hw
  rcases List.mem_map.mp hw with ⟨x, hx, hmk⟩
  have hne := fieldsChAux_ne_nil s.data [] x hx
  intro hcon
  apply hne
  have : (⟨x⟩ : String).data = ("" : String).data := by rw [hmk, hcon]
  simpa using this

/-- The lower-cased first whitespace-delimited token (empty when there is
none; tokens are never empty, so the two cases cannot collide). -/
def firstTokenLower (s : String) : String :=
  match fieldsAsc s with
  | [] => ""
  | w :: _ => lowerAsc w

/-- The first tokens of the objective strings `parseObjective` recognises
(every other first token falls through to the regression default). -/
def recognizedObjToken (t : String) : Prop :=
  (t = "binary" ∨ t = "cross_entropy") ∨
  (t = "multiclass" ∨ t = "multiclassova" ∨ t = "multi_logloss" ∨ t = "softmax" ∨
    t = "multiclass_ova" ∨ t = "ova" ∨ t = "ovr") ∨
  (t = "lambdarank" ∨ t = "rank_xendcg" ∨ t = "rank") ∨
  t = "poisson" ∨ t = "gamma" ∨ t = "tweedie" ∨
  (t = "regression" ∨ t = "regression_l2" ∨ t = "regression_l1" ∨
    t = "mean_squared_error" ∨ t = "mse" ∨ t = "l2" ∨ t = "l1" ∨
    t = "mean_absolute_error" ∨ t = "mae" ∨ t = "huber" ∨ t = "fair" ∨
    t = "quantile" ∨ t = "mape" ∨ t = "custom")

/-- C8: objective resolution never fails; it depends only on the
lower-cased first whitespace-delimited token (case and trailing tokens
are ignored); the named objectives map to their transforms — binary to
sigmoid, multiclass to softmax, regression and ranking to identity,
poisson/gamma/tweedie to exponential — and every unrecognised or empty
objective string resolves to the regression default with the identity
transform. -/
theorem objective_resolution :
    (∀ s, ∃ o, parseObjective s = .ok o) ∧
    (∀ s₁ s₂, firstTokenLower s₁ = firstTokenLower s₂ →
      parseObjective s₁ = parseObjective s₂) ∧
    (∀ s, ¬recognizedObjToken (firstTokenLower s) → parseObjective s = .ok .regression) ∧
    (parseObjective "binary" = .ok .binary ∧ transformForObjective .binary = .sigmoid) ∧
    (parseObjective "multiclass" = .ok .multiclass ∧
      transformForObjective .multiclass = .softmax) ∧
    (parseObjective "regression" = .ok .regression ∧
      transformForObjective .regression = .identity) ∧
    (parseObjective "lambdarank" = .ok .ranking ∧
      transformForObjective .ranking = .identity) ∧
    (parseObjective "poisson" = .ok .poisson ∧
      transformForObjective .poisson = .exponential) ∧
    (parseObjective "gamma" = .ok .gamma ∧
      transformForObjective .gamma = .exponential) ∧
    (parseObjective "tweedie" = .ok .tweedie ∧
      transformForObjective .tweedie = .exponential) ∧
    parseObjective "" = .ok .regression ∧
    parseObjective "BINARY sigmoid:1" = .ok .binary ∧
    parseObjective "what_is_this" = .ok .regression := by
  refine ⟨?_, ?_, ?_, by decide, by decide, by decide, by decide, by decide,
    by decide, by decide, by decide, by decide, by decide⟩
  · intro s
    unfold parseObjective
    cases fieldsAsc s with
    | nil => exact ⟨.regression, rfl⟩
    | cons w tail =>
      dsimp only
      split
      · exact ⟨_, rfl⟩
      all_goals split
      all_goals first | exact ⟨_, rfl⟩ | split
      all_goals first | exact ⟨_, rfl⟩ | split
      all_goals first | exact ⟨_, rfl⟩ | split
      all_goals first | exact ⟨_, rfl⟩ | split
      all_goals first | exact ⟨_, rfl⟩ | split
      all_goals exact ⟨_, rfl⟩
  · intro s₁ s₂ he
    unfold firstTokenLower at he
    unfold parseObjective
    cases h₁ : fieldsAsc s₁ with
    | nil =>
      cases h₂ : fieldsAsc s₂ with
      | nil => rfl
      | cons w t =>
        rw [h₁, h₂] at he
        dsimp only at he
        exfalso
        apply mem_fieldsAsc_ne_empty s₂ w (h₂ ▸ List.mem_cons_self w t)
        have hlen : w.data.length = 0 := by
          have := congrArg (fun s : String => s.data.length) he
          simpa [lowerAsc] using this.symm
        cases w with
        | mk d =>
          have hd : d = [] := List.length_eq_zero.mp hlen
          subst hd
          decide
    | cons w t =>
      cases h₂ : fieldsAsc s₂ with
      | nil =>
        rw [h₁, h₂] at he
        dsimp only at he
        exfalso
        apply mem_fieldsAsc_ne_empty s₁ w (h₁ ▸ List.mem_cons_self w t)
        have hlen : w.data.length = 0 := by
          have := congrArg (fun s : String => s.data.length) he
          simpa [lowerAsc] using this
        cases w with
        | mk d =>
          have hd : d = [] := List.length_eq_zero.mp hlen
          subst hd
          decide
      | cons w₂ t₂ =>
        rw [h₁, h₂] at he
        dsimp only at he
        dsimp only
        rw [show lowerAsc w = lowerAsc w₂ from he]
  · intro s hn
    unfold firstTokenLower at hn
    unfold parseObjective
    cases hf : fieldsAsc s with
    | nil => rfl
    | cons w tail =>
      rw [hf] at hn
      unfold recognizedObjToken at hn
      push_neg at hn
      dsimp only
      rw [if_neg (by tauto), if_neg (by tauto), if_neg (by tauto), if_neg (by tauto),
        if_neg (by tauto), if_neg (by tauto), if_neg (by tauto)]

/-- C4: at an internal node whose lookups are in range, a NaN feature
value routes by bit 1 of the decision type (left if set, right if clear)
regardless of the categorical bit and threshold; a non-NaN value at a
numerical node (categorical bit clear) routes left exactly when
`value <= threshold` under IEEE `<=`, so `+Inf` routes right and `-Inf`
routes left at every finite threshold. -/
theorem predictStep_routing :
    ∀ (t : tree) (f : List GFloat) (node fi l r : Int) (v thr : GFloat) (dt : Nat),
      goIdx t.splitFeatures node = some fi →
      goIdx f fi = some v →
      goIdx t.decisionTypes node = some dt →
      goIdx t.thresholds node = some thr →
      goIdx t.leftChildren node = some l →
      goIdx t.rightChildren node = some r →
      ((v.isNaN = true →
          predictStep t f node = some (if dt &&& 2 ≠ 0 then l else r)) ∧
       (v.isNaN = false → dt &&& 1 = 0 →
          predictStep t f node = some (if gle v thr then l else r)) ∧
       (∀ q : Q, v = .inf true → thr = .fin q → dt &&& 1 = 0 →
          predictStep t f node = some r) ∧
       (∀ q : Q, v = .inf false → thr = .fin q → dt &&& 1 = 0 →
          predictStep t f node = some l)) := by
  intro t f node fi l r v thr dt hsf hv hdt ht hl hr
  have hnum : v.isNaN = false → dt &&& 1 = 0 →
      predictStep t f node = some (if gle v thr then l else r) := by
    intro hnn hone
    unfold predictStep
    rw [hsf]
    simp only [Option.bind_eq_bind, Option.some_bind]
    rw [hv]
    simp only [Option.bind_eq_bind, Option.some_bind]
    rw [hdt]
    simp only [Option.bind_eq_bind, Option.some_bind]
    rw [hnn]
    simp only [Bool.false_eq_true, if_false]
    rw [if_neg (by simp [hone]), ht]
    simp only [Option.bind_eq_bind, Option.some_bind]
    cases hg : gle v thr
    · simp [hg, hr]
    · simp [hg, hl]
  refine ⟨?_, hnum, ?_, ?_⟩
  · intro hnan
    unfold predictStep
    rw [hsf]
    simp only [Option.bind_eq_bind, Option.some_bind]
    rw [hv]
    simp only [Option.bind_eq_bind, Option.some_bind]
    rw [hdt]
    simp only [Option.bind_eq_bind, Option.some_bind]
    rw [hnan]
    simp only [if_true]
    by_cases hc : dt &&& 2 ≠ 0
    · simp [hc, hl]
    · simp [hc, hr]
  · intro q hv' ht' hone
    have := hnum (by rw [hv']; rfl) hone
    rw [this, hv', ht']
    simp [gle]
  · intro q hv' ht' hone
    have := hnum (by rw [hv']; rfl) hone
    rw [this, hv', ht']
    simp [gle]

/-- The two-leaf numerical tree of the spec's worked scenario. -/
def demoNumericTree : tree := consistentTree

/-- C4 witness: NaN with decision type 0 (default bit clear) routes to the
right child. -/
theorem predictStep_routing_witness :
    predictStep demoNumericTree [GFloat.nan] 0 = some (-2) := by
  have h := (predictStep_routing demoNumericTree [GFloat.nan] 0 0 (-1) (-2) GFloat.nan
    (.fin ⟨5, 10⟩) 0 (by decide) (by decide) (by decide) (by decide) (by decide)
    (by decide)).1 rfl
  simpa using h

/-- For a non-negative category, the Go bitset test agrees with the
spec-worded membership: bit `category mod 32` of word `category div 32`,
word indexes at or beyond the slice answering `false`. -/
theorem isCategoryInBitset_nonneg (n : Nat) (bitset : List Nat) :
    isCategoryInBitset (n : Int) bitset = some (catMemberSpec n bitset) := by
  unfold isCategoryInBitset catMemberSpec
  have hdiv : Int.tdiv (n : Int) 32 = ((n / 32 : Nat) : Int) := rfl
  have hbit : ((Int.tmod (n : Int) 32) % (2 ^ 64 : Int)).toNat = n % 32 := by
    have h1 : Int.tmod (n : Int) 32 = ((n % 32 : Nat) : Int) := rfl
    rw [h1]
    omega
  rw [hdiv, hbit]
  by_cases hlen : (bitset.length : Int) ≤ ((n / 32 : Nat) : Int)
  · rw [if_pos hlen, List.getElem?_eq_none (by exact_mod_cast hlen)]
  · rw [if_neg hlen]
    have hlt : n / 32 < bitset.length := by
      have := not_le.mp hlen
      exact_mod_cast this
    have hidx : goIdx bitset ((n / 32 : Nat) : Int) = some (bitset[n / 32]) := by
      unfold goIdx
      rw [if_neg (by omega), Int.toNat_natCast]
      exact List.getElem?_eq_getElem hlt
    rw [hidx]
    simp only [Option.bind_eq_bind, Option.some_bind]
    rw [List.getElem?_eq_getElem hlt]
    congr 1
    have hb32 : n % 32 < 32 := Nat.mod_lt _ (by omega)
    have hshift : (1 <<< (n % 32)) % 2 ^ 32 = 2 ^ (n % 32) := by
      rw [Nat.shiftLeft_eq, one_mul, Nat.mod_eq_of_lt (Nat.pow_lt_pow_right (by omega) hb32)]
    rw [hshift, Nat.and_two_pow]
    cases hbt : (bitset[n / 32]).testBit (n % 32) <;>
      simp [hbt, Nat.pos_iff_ne_zero.mp (@Nat.pos_pow_of_pos 2 (n % 32) (by omega))]

/-- C5: at an internal node with the categorical bit set and a
non-negative finite feature value, the value is truncated to an integer
category, the node's stored threshold `t` selects the bitset slice
`catThresholds[catBoundaries[t] : catBoundaries[t+1]]`, and the step
routes left exactly when bit `category mod 32` of word `category div 32`
is set in that slice; a word index at or beyond the slice length routes
right (all folded into `catMemberSpec`). -/
theorem predictStep_categorical :
    ∀ (t : tree) (f : List GFloat) (node fi l r s e : Int) (q thrq : Q) (dt : Nat),
      goIdx t.splitFeatures node = some fi →
      goIdx f fi = some (.fin q) →
      goIdx t.decisionTypes node = some dt →
      dt &&& 1 ≠ 0 →
      0 ≤ q.num →
      goIdx t.thresholds node = some (.fin thrq) →
      goIdx t.catBoundaries (qtrunc thrq) = some s →
      goIdx t.catBoundaries (qtrunc thrq + 1) = some e →
      0 ≤ s → s ≤ e → e ≤ (t.catThresholds.length : Int) →
      goIdx t.leftChildren node = some l →
      goIdx t.rightChildren node = some r →
      predictStep t f node =
        some (if catMemberSpec (qtrunc q).toNat
            ((t.catThresholds.drop s.toNat).take (e - s).toNat) then l else r) := by
  intro t f node fi l r s e q thrq dt hsf hv hdt hcat hq ht hbs hbe hs0 hse hel hl hr
  have htrq : 0 ≤ qtrunc q := Int.tdiv_nonneg hq (Int.natCast_nonneg _)
  unfold predictStep
  rw [hsf]
  simp only [Option.bind_eq_bind, Option.some_bind]
  rw [hv]
  simp only [Option.bind_eq_bind, Option.some_bind]
  rw [hdt]
  simp only [Option.bind_eq_bind, Option.some_bind]
  rw [if_neg (by simp [GFloat.isNaN]), if_pos hcat]
  simp only [floatToInt, Option.bind_eq_bind, Option.some_bind]
  rw [ht]
  simp only [floatToInt, Option.bind_eq_bind, Option.some_bind]
  rw [hbs]
  simp only [Option.bind_eq_bind, Option.some_bind]
  rw [hbe]
  simp only [Option.bind_eq_bind, Option.some_bind]
  unfold goSlice
  rw [if_pos ⟨hs0, hse, hel⟩]
  simp only [Option.bind_eq_bind, Option.some_bind]
  have hic : isCategoryInBitset (qtrunc q)
      ((t.catThresholds.drop s.toNat).take (e - s).toNat) =
      some (catMemberSpec (qtrunc q).toNat
        ((t.catThresholds.drop s.toNat).take (e - s).toNat)) := by
    conv_lhs =>
      rw [show qtrunc q = (((qtrunc q).toNat : Nat) : Int) from (Int.toNat_of_nonneg htrq).symm]
    rw [isCategoryInBitset_nonneg]
  rw [hic]
  simp only [Option.bind_eq_bind, Option.some_bind]
  cases hb : catMemberSpec (qtrunc q).toNat
      ((t.catThresholds.drop s.toNat).take (e - s).toNat)
  · simp [hb, hr]
  · simp [hb, hl]

/-- The categorical tree of the spec's worked scenario:
`cat_boundaries=[0,1]`, `cat_threshold=[5]` (bits 0 and 2 set),
`threshold=[0]` as the bitset index. -/
def demoCatTree : tree :=
  { numLeaves := 2, splitFeatures := [0], thresholds := [.fin (qofInt 0)],
    decisionTypes := [1], leftChildren := [-1], rightChildren := [-2],
    leafValues := [.fin (qofInt 10), .fin (qofInt 20)], shrinkage := .fin (qofInt 1),
    catBoundaries := [0, 1], catThresholds := [5] }

/-- C5 witness: category 0 is in the bitset word 5, so the step routes to
the left child. -/
theorem predictStep_categorical_witness :
    predictStep demoCatTree [GFloat.fin (qofInt 0)] 0 = some (-1) := by
  have h := predictStep_categorical demoCatTree [GFloat.fin (qofInt 0)] 0 0 (-1) (-2) 0 1
    (qofInt 0) (qofInt 0) 1 (by decide) (by decide) (by decide) (by decide) (by decide)
    (by decide) (by decide) (by decide) (by decide) (by decide) (by decide) (by decide)
    (by decide)
  simpa using h

/-- An element mapping to `none` makes the whole `mapM` `none`. -/
theorem mapM_none_of_mem {α β : Type} (f : α → Option β) :
    ∀ (l : List α) (x : α), x ∈ l → f x = none → l.mapM f = none := by
  intro l
  induction l with
  | nil => intro x hx; simp at hx
  | cons a as ih =>
    intro x hx hfx
    rw [List.mapM_cons]
    rcases List.mem_cons.mp hx with h | h
    · subst h
      rw [hfx]
      rfl
    · cases hfa : f a
      · rfl
      · rw [ih x h hfx]
        rfl

/-- `mapM` over everywhere-successful `f` is `map` of the values. -/
theorem mapM_eq_map_of_some {α β : Type} (f : α → Option β) (fv : α → β) :
    ∀ l : List α, (∀ x ∈ l, f x = some (fv x)) → l.mapM f = some (l.map fv) := by
  intro l
  induction l with
  | nil => intro _; rfl
  | cons a as ih =>
    intro hall
    rw [List.mapM_cons, hall a (List.mem_cons_self a as),
      ih (fun x hx => hall x (List.mem_cons_of_mem a hx))]
    rfl

/-- `mapM` returning `some` means every element succeeded. -/
theorem mapM_some_forall {α β : Type} (f : α → Option β) :
    ∀ (l : List α) (r : List β), l.mapM f = some r → ∀ x ∈ l, ∃ y, f x = some y := by
  intro l
  induction l with
  | nil => intro r _ x hx; simp at hx
  | cons a as ih =>
    intro r hr x hx
    rw [List.mapM_cons] at hr
    cases hfa : f a with
    | none => rw [hfa] at hr; exact absurd hr (by simp [Option.bind_eq_bind])
    | some y =>
      rw [hfa] at hr
      rcases List.mem_cons.mp hx with h | h
      · exact ⟨y, h ▸ hfa⟩
      · cases hmas : as.mapM f with
        | none => rw [hmas] at hr; exact absurd hr (by simp [Option.bind_eq_bind])
        | some rs => exact ih rs hmas x h

/-- An element whose body always fails makes the whole `foldlM` `none`. -/
theorem foldlM_none {α σ : Type} (body : σ → α → Option σ) :
    ∀ (l : List α) (acc : σ), (∃ x ∈ l, ∀ a : σ, body a x = none) →
      l.foldlM body acc = none := by
  intro l
  induction l with
  | nil => intro acc h; simp at h
  | cons a as ih =>
    intro acc ⟨x, hx, hfail⟩
    rw [List.foldlM_cons]
    rcases List.mem_cons.mp hx with h | h
    · rw [← h, hfail acc]
      rfl

    · cases hba : body acc a
      · rfl
      · rename_i acc2
        show List.foldlM body acc2 as = none
        exact ih acc2 ⟨x, h, hfail⟩

/-- `foldlM` over an everywhere-successful body that preserves an
invariant is the pure `foldl` of the values. -/
theorem foldlM_eq_foldl {α σ : Type} (P : σ → Prop) (body : σ → α → Option σ)
    (tb : σ → α → σ) :
    ∀ (l : List α) (acc : σ), P acc →
      (∀ a x, x ∈ l → P a → body a x = some (tb a x) ∧ P (tb a x)) →
      l.foldlM body acc = some (l.foldl tb acc) := by
  intro l
  induction l with
  | nil => intro acc _ _; rfl
  | cons a as ih =>
    intro acc hP hall
    rw [List.foldlM_cons]
    obtain ⟨hb, hP2⟩ := hall acc a (List.mem_cons_self a as) hP
    rw [hb]
    show as.foldlM body (tb acc a) = some ((a :: as).foldl tb acc)
    rw [List.foldl_cons]
    exact ih (tb acc a) hP2 (fun b x hx hPb => hall b x (List.mem_cons_of_mem a hx) hPb)

/-- The pure form of the accumulation loop: folding slot updates over all
tree indices equals, slot by slot, the fold of that slot's own
contributions. -/
theorem accumFold_eq_slots (gv : Nat → GFloat) (kN : Nat) (hk : 0 < kN) :
    ∀ nn : Nat,
      (List.range nn).foldl
        (fun acc i => acc.set (i % kN) (fadd (acc.getD (i % kN) (GFloat.fin qzero)) (gv i)))
        (List.replicate kN (GFloat.fin qzero))
      = (List.range kN).map
        (fun j => ((List.range nn).filter (fun i => i % kN == j)).foldl
          (fun a i => fadd a (gv i)) (GFloat.fin qzero)) := by
  intro nn
  induction nn with
  | zero =>
    simp only [List.range_zero, List.foldl_nil, List.filter_nil]
    rw [List.map_const', List.length_range]
  | succ nn ih =>
    rw [List.range_succ, List.foldl_append, List.foldl_cons, List.foldl_nil, ih]
    apply List.ext_getElem
    · simp
    · intro mm h1 h2
      have hkm : mm < kN := by simpa using h2
      have hj0 : nn % kN < kN := Nat.mod_lt _ hk
      simp only [List.getElem_set, List.getElem_map, List.getElem_range]
      rw [List.filter_append]
      have hsingle : List.filter (fun i => i % kN == mm) [nn] =
          if nn % kN = mm then [nn] else [] := by
        by_cases hmm : nn % kN = mm
        · simp [List.filter, hmm]
        · have hb : (nn % kN == mm) = false := by simpa using hmm
          simp [List.filter, hb, hmm]
      rw [hsingle, List.foldl_append]
      have hgetD : (List.map (fun j => ((List.range nn).filter (fun i => i % kN == j)).foldl
            (fun a i => fadd a (gv i)) (GFloat.fin qzero)) (List.range kN)).getD (nn % kN)
            (GFloat.fin qzero)
          = ((List.range nn).filter (fun i => i % kN == nn % kN)).foldl
            (fun a i => fadd a (gv i)) (GFloat.fin qzero) := by
        rw [List.getD_eq_getElem _ _ (by simpa using hj0)]
        simp only [List.getElem_map, List.getElem_range]
      by_cases hmm : nn % kN = mm
      · rw [if_pos hmm, if_pos hmm, hgetD, hmm]
        simp only [List.foldl_cons, List.foldl_nil]
      · rw [if_neg hmm, if_neg hmm]
        simp only [List.foldl_nil]

/-- The accumulation loop of `predictRaw`, slot by slot: with a positive
group count, folding per-tree contributions `g i` into slot `i mod k`
equals computing each slot's own filtered fold — including the failure
(panic) cases, which agree on both sides. -/
theorem accumLoop_eq_slots (g : Nat → Option GFloat) (kN : Nat) (hk : 0 < kN) (n : Nat) :
    (List.range n).foldlM (fun acc i => do
        let v ← g i
        let old ← goIdx acc (Int.tmod (i : Int) (kN : Int))
        pure (acc.set (Int.tmod (i : Int) (kN : Int)).toNat (fadd old v)))
      (List.replicate kN (GFloat.fin qzero))
    = (List.range kN).mapM (fun j => do
        let contrib ← ((List.range n).filter (fun i => i % kN == j)).mapM g
        pure (contrib.foldl fadd (GFloat.fin qzero))) := by
  have htm : ∀ i : Nat, Int.tmod (i : Int) (kN : Int) = ((i % kN : Nat) : Int) := fun i => rfl
  by_cases hall : ∀ i, i < n → ∃ v, g i = some v
  · have hgv : ∀ i, i < n → g i = some ((g i).getD (GFloat.fin qzero)) := by
      intro i hi
      obtain ⟨v, hv⟩ := hall i hi
      rw [hv]
      rfl
    have hL := foldlM_eq_foldl (fun acc : List GFloat => acc.length = kN)
      (fun acc i => do
        let v ← g i
        let old ← goIdx acc (Int.tmod (i : Int) (kN : Int))
        pure (acc.set (Int.tmod (i : Int) (kN : Int)).toNat (fadd old v)))
      (fun acc i => acc.set (i % kN)
        (fadd (acc.getD (i % kN) (GFloat.fin qzero)) ((g i).getD (GFloat.fin qzero))))
      (List.range n) (List.replicate kN (GFloat.fin qzero)) (by simp)
      (by
        intro acc x hx hP
        have hxn : x < n := List.mem_range.mp hx
        have hxk : x % kN < kN := Nat.mod_lt _ hk
        have hidx : goIdx acc (Int.tmod (x : Int) (kN : Int)) =
            some (acc.getD (x % kN) (GFloat.fin qzero)) := by
          rw [htm x]
          unfold goIdx
          rw [if_neg (by omega), Int.toNat_natCast,
            List.getElem?_eq_getElem (hP ▸ hxk : x % kN < acc.length),
            List.getD_eq_getElem _ _ (hP ▸ hxk : x % kN < acc.length)]
        dsimp only
        constructor
        · rw [hgv x hxn]
          simp only [Option.bind_eq_bind, Option.some_bind]
          rw [hidx]
          simp only [Option.bind_eq_bind, Option.some_bind]
          rw [htm x, Int.toNat_natCast]
          rfl
        · rw [List.length_set]
          exact hP)
    rw [hL]
    have hR := mapM_eq_map_of_some
      (fun j => do
        let contrib ← ((List.range n).filter (fun i => i % kN == j)).mapM g
        pure (contrib.foldl fadd (GFloat.fin qzero)))
      (fun j => (((List.range n).filter (fun i => i % kN == j)).map
        (fun i => (g i).getD (GFloat.fin qzero))).foldl fadd (GFloat.fin qzero))
      (List.range kN)
      (by
        intro j hj
        dsimp only
        have hinner := mapM_eq_map_of_some g (fun i => (g i).getD (GFloat.fin qzero))
          ((List.range n).filter (fun i => i % kN == j))
          (fun x hx => hgv x (List.mem_range.mp (List.mem_filter.mp hx).1))
        rw [hinner]
        rfl)
    rw [hR]
    rw [accumFold_eq_slots (fun i => (g i).getD (GFloat.fin qzero)) kN hk n]
    refine congrArg some ?_
    apply List.map_congr_left
    intro j hj
    rw [List.foldl_map]
  · push_neg at hall
    obtain ⟨i, hi, hnone⟩ := hall
    have hgnone : g i = none := by
      cases hgi : g i with
      | none => rfl
      | some v => exact absurd hgi (hnone v)
    rw [foldlM_none _ _ _ ⟨i, List.mem_range.mpr hi, fun a => by rw [hgnone]; rfl⟩]
    have hslot : (fun j => do
        let contrib ← ((List.range n).filter (fun i => i % kN == j)).mapM g
        pure (contrib.foldl fadd (GFloat.fin qzero)) : Nat → Option GFloat) (i % kN) = none := by
      have hmemf : i ∈ (List.range n).filter (fun x => x % kN == i % kN) :=
        List.mem_filter.mpr ⟨List.mem_range.mpr hi, by simp⟩
      have := mapM_none_of_mem g ((List.range n).filter (fun x => x % kN == i % kN)) i hmemf hgnone
      simp only
      rw [this]
      rfl
    rw [mapM_none_of_mem _ _ (i % kN) (List.mem_range.mpr (Nat.mod_lt _ hk)) hslot]

/-- `mapM` preserves length when it succeeds. -/
theorem mapM_some_length {α β : Type} (f : α → Option β) :
    ∀ (l : List α) (r : List β), l.mapM f = some r → r.length = l.length := by
  intro l
  induction l with
  | nil => intro r hr; simp only [List.mapM_nil] at hr; cases hr; rfl
  | cons a as ih =>
    intro r hr
    rw [List.mapM_cons] at hr
    cases hfa : f a with
    | none => rw [hfa] at hr; exact absurd hr (by simp [Option.bind_eq_bind])
    | some y =>
      rw [hfa] at hr
      cases hmas : as.mapM f with
      | none => rw [hmas] at hr; exact absurd hr (by simp [Option.bind_eq_bind])
      | some rs =>
        rw [hmas] at hr
        simp only [Option.bind_eq_bind, Option.some_bind] at hr
        cases hr
        simp [ih rs hmas]

/-- C6: with a positive group count and a non-negative tree limit,
`predictRaw` computes exactly the spec's accumulation — a vector of
`trees_per_round` slots starting at zero, trees in ensemble order up to
`min(tree count, nEstimators * trees_per_round)` (all trees when
`nEstimators = 0`), tree `i` adding its leaf value into slot
`i mod trees_per_round`, and, for an average-output ensemble, every slot
divided by the number of boosting rounds actually used; the returned
vector has length `trees_per_round`. -/
theorem predictRaw_eq_spec :
    ∀ (m : Model) (features : List GFloat) (nEstimators : Int) (fuel : Nat),
      0 < m.numTreesPerIteration → 0 ≤ nEstimators →
      predictRaw m features nEstimators fuel = predictRawSpec m features nEstimators fuel ∧
      (∀ r, predictRaw m features nEstimators fuel = some r →
        r.length = m.numTreesPerIteration.toNat) := by
  intro m features nEst fuel hk h0
  obtain ⟨kN, hkN⟩ : ∃ kN : Nat, m.numTreesPerIteration = (kN : Int) :=
    ⟨_, (Int.toNat_of_nonneg (le_of_lt hk)).symm⟩
  have hkNpos : 0 < kN := by omega
  have heq : predictRaw m features nEst fuel = predictRawSpec m features nEst fuel := by
    unfold predictRaw predictRawSpec
    rw [hkN]
    dsimp only
    rw [if_neg (by omega)]
    have hmax : (if 0 < nEst ∧ nEst * (kN : Int) < (m.trees.length : Int) then
          nEst * (kN : Int) else (m.trees.length : Int))
        = (if nEst = 0 then (m.trees.length : Int)
          else min (m.trees.length : Int) (nEst * (kN : Int))) := by
      rcases eq_or_lt_of_le h0 with he | hpos
      · rw [if_neg (show ¬(0 < nEst ∧ nEst * (kN : Int) < (m.trees.length : Int)) by omega),
          if_pos (show nEst = 0 by omega)]
      · rw [min_def, if_neg (show ¬nEst = 0 by omega)]
        by_cases hlt : nEst * (kN : Int) < (m.trees.length : Int)
        · rw [if_pos (show (0 < nEst ∧ nEst * (kN : Int) < (m.trees.length : Int)) from ⟨hpos, hlt⟩),
            if_neg (show ¬((m.trees.length : Int) ≤ nEst * (kN : Int)) by omega)]
        · rw [if_neg (show ¬(0 < nEst ∧ nEst * (kN : Int) < (m.trees.length : Int)) from
            fun hc => hlt hc.2),
            if_pos (show (m.trees.length : Int) ≤ nEst * (kN : Int) by omega)]
    rw [hmax]
    have hbody : (fun (acc : List GFloat) (i : Nat) =>
          if (kN : Int) = 0 then none
          else do
            let tr ← goIdx m.trees (i : Int)
            let v ← predictLeafFuel tr features fuel
            let old ← goIdx acc (Int.tmod (i : Int) (kN : Int))
            pure (acc.set (Int.tmod (i : Int) (kN : Int)).toNat (fadd old v)))
        = (fun (acc : List GFloat) (i : Nat) => do
            let v ← (do
              let tr ← goIdx m.trees (i : Int)
              predictLeafFuel tr features fuel)
            let old ← goIdx acc (Int.tmod (i : Int) (kN : Int))
            pure (acc.set (Int.tmod (i : Int) (kN : Int)).toNat (fadd old v))) := by
      funext acc i
      rw [if_neg (by omega)]
      cases hgt : goIdx m.trees (i : Int) with
      | none => rfl
      | some tr =>
        cases hpl : predictLeafFuel tr features fuel with
        | none => rfl
        | some v => rfl
    rw [hbody, Int.toNat_natCast,
      accumLoop_eq_slots (fun i => do
        let tr ← goIdx m.trees (i : Int)
        predictLeafFuel tr features fuel) kN hkNpos _]
  refine ⟨heq, ?_⟩
  intro r hr
  rw [heq] at hr
  unfold predictRawSpec at hr
  rw [hkN] at hr
  dsimp only at hr
  simp only [Option.bind_eq_bind] at hr
  rw [Option.bind_eq_some] at hr
  obtain ⟨slots, hM, hcont⟩ := hr
  have hlen : slots.length = kN := by simpa using mapM_some_length _ _ _ hM
  rw [hkN, Int.toNat_natCast]
  by_cases havg : m.averageOutput = true ∧
      0 < (if nEst = 0 then (m.trees.length : Int)
        else min (m.trees.length : Int) (nEst * (kN : Int)))
  · rw [if_pos havg] at hcont
    cases hcont
    simp [hlen]
  · rw [if_neg havg] at hcont
    cases hcont
    exact hlen

/-- A one-tree single-group model over two features. -/
def demoModel : Model :=
  { version := "v3", numClasses := 1, numTreesPerIteration := 1, numFeatures := 1,
    objective := .regression, averageOutput := false,
    trees := [consistentTree], featureNames := [], transform := .identity }

/-- C6 witness: the equivalence applied to a concrete one-tree model. -/
theorem predictRaw_eq_spec_witness :
    predictRaw demoModel [GFloat.fin ⟨3, 10⟩] 0 3 =
      predictRawSpec demoModel [GFloat.fin ⟨3, 10⟩] 0 3 :=
  (predictRaw_eq_spec demoModel [GFloat.fin ⟨3, 10⟩] 0 3 (by decide) (by decide)).1

/-- A full model file whose sole tree points both children of node 0 back
to node 0: nothing in assembly rejects it. -/
def cyclicModelLines : List String :=
  ["tree", "version=v3", "num_class=1", "max_feature_idx=1", "",
   "Tree=0", "num_leaves=2", "split_feature=0", "threshold=0.5", "decision_type=0",
   "left_child=0", "right_child=0", "leaf_value=1 2", "", "end of trees"]

def cyclicTree : tree :=
  { numLeaves := 2, splitFeatures := [0], thresholds := [.fin ⟨5, 10⟩],
    decisionTypes := [0], leftChildren := [0], rightChildren := [0],
    leafValues := [.fin ⟨1, 1⟩, .fin ⟨2, 1⟩], shrinkage := .fin (qofInt 1),
    catBoundaries := [], catThresholds := [] }

def cyclicModel : Model :=
  { version := "v3", numClasses := 1, numTreesPerIteration := 1, numFeatures := 2,
    objective := .regression, averageOutput := false, trees := [cyclicTree],
    featureNames := [], transform := .identity }

/-- C3 counterexample: the cyclic model assembles successfully
(`parseModelLines` returns it with no error), yet on a feature vector of
the ensemble's feature count the traversal of its tree revisits node 0
forever and never reaches a leaf — no amount of fuel yields a result. -/
theorem assembled_cycle_never_reaches_leaf :
    parseModelLines cyclicModelLines = .ok cyclicModel ∧
    cyclicModel.numFeatures = 2 ∧
    ¬∃ (fuel : Nat) (v : GFloat),
      predictLeafFuel cyclicTree [GFloat.fin qzero, GFloat.fin qzero] fuel = some v := by
  refine ⟨by decide, by decide, ?_⟩
  rintro ⟨fuel, v, hv⟩
  have hstep : predictStep cyclicTree [GFloat.fin qzero, GFloat.fin qzero] 0 = some 0 := by
    decide
  have hloop : ∀ n : Nat,
      predictLoop cyclicTree [GFloat.fin qzero, GFloat.fin qzero] n 0 = none := by
    intro n
    induction n with
    | zero => rfl
    | succ n ih => simp [predictLoop, hstep, ih]
  rw [predictLeafFuel, hloop fuel] at hv
  exact Option.noConfusion hv

theorem goIdx_natCast {α : Type} (l : List α) (n : Nat) (h : n < l.length) :
    goIdx l (n : Int) = some (l[n]) := by
  unfold goIdx
  rw [if_neg (by omega), Int.toNat_natCast]
  exact List.getElem?_eq_getElem h

theorem goIdx_pos {α : Type} (l : List α) (i : Int) (h0 : 0 ≤ i)
    (h : i < (l.length : Int)) :
    goIdx l i = some (l[i.toNat]) := by
  unfold goIdx
  rw [if_neg (by omega)]
  exact List.getElem?_eq_getElem (by omega)

/-- Any category above `-32` makes the bitset test return (rather than
panic): non-negative categories land in or past the slice, small negative
ones have word index 0. -/
theorem isCategoryInBitset_isSome (category : Int) (h : -32 < category)
    (bitset : List Nat) : ∃ b, isCategoryInBitset category bitset = some b := by
  by_cases h0 : 0 ≤ category
  · refine ⟨catMemberSpec category.toNat bitset, ?_⟩
    conv_lhs => rw [show category = ((category.toNat : Nat) : Int) from
      (Int.toNat_of_nonneg h0).symm]
    exact isCategoryInBitset_nonneg category.toNat bitset
  · unfold isCategoryInBitset
    have hw : Int.tdiv category 32 = 0 := by
      have hneg : category = -(-category) := by omega
      rw [hneg, Int.neg_tdiv, Int.tdiv_eq_zero_of_lt (by omega) (by omega)]
      rfl
    rw [hw]
    by_cases hl : (bitset.length : Int) ≤ 0
    · rw [if_pos hl]
      exact ⟨false, rfl⟩
    · rw [if_neg hl]
      rw [show goIdx bitset 0 = some (bitset[0]) from goIdx_pos bitset 0 (by omega) (by omega)]
      exact ⟨_, rfl⟩

/-- On a structurally valid tree with a compatible feature vector, every
internal node's step succeeds and yields a child reference that is itself
valid. -/
theorem wf_step (t : tree) (f : List GFloat) (nFeat : Nat)
    (hwf : wfTree t nFeat = true) (hfo : featOk t f nFeat = true)
    (node : Nat) (hnode : node < t.splitFeatures.length) :
    ∃ c : Int, predictStep t f (node : Int) = some c ∧
      childOk t.splitFeatures.length t.numLeaves node c = true := by
  simp only [wfTree, Bool.and_eq_true, decide_eq_true_eq, List.all_eq_true] at hwf
  obtain ⟨⟨⟨⟨⟨⟨hNL, hTH⟩, hDT⟩, hLC⟩, hRC⟩, hLV⟩, hall⟩ := hwf
  simp only [featOk, Bool.and_eq_true, decide_eq_true_eq, List.all_eq_true] at hfo
  obtain ⟨hflen, hfall⟩ := hfo
  have hnodeOk := hall node (List.mem_range.mpr hnode)
  have hvalOk := hfall node (List.mem_range.mpr hnode)
  have hsfg : t.splitFeatures[node]? = some (t.splitFeatures[node]) :=
    List.getElem?_eq_getElem hnode
  have hdtg : t.decisionTypes[node]? = some (t.decisionTypes[node]) :=
    List.getElem?_eq_getElem (by omega)
  have hthg : t.thresholds[node]? = some (t.thresholds[node]) :=
    List.getElem?_eq_getElem (by omega)
  have hlcg : t.leftChildren[node]? = some (t.leftChildren[node]) :=
    List.getElem?_eq_getElem (by omega)
  have hrcg : t.rightChildren[node]? = some (t.rightChildren[node]) :=
    List.getElem?_eq_getElem (by omega)
  rw [nodeOk, hsfg, hdtg, hlcg, hrcg] at hnodeOk
  simp only [Bool.and_eq_true, decide_eq_true_eq] at hnodeOk
  obtain ⟨⟨⟨⟨hfi0, hfin⟩, hcl⟩, hcr⟩, hcatOk⟩ := hnodeOk
  have hsfi : goIdx t.splitFeatures (node : Int) = some (t.splitFeatures[node]) :=
    goIdx_natCast _ _ hnode
  have hdti : goIdx t.decisionTypes (node : Int) = some (t.decisionTypes[node]) :=
    goIdx_natCast _ _ (by omega)
  have hthi : goIdx t.thresholds (node : Int) = some (t.thresholds[node]) :=
    goIdx_natCast _ _ (by omega)
  have hlci : goIdx t.leftChildren (node : Int) = some (t.leftChildren[node]) :=
    goIdx_natCast _ _ (by omega)
  have hrci : goIdx t.rightChildren (node : Int) = some (t.rightChildren[node]) :=
    goIdx_natCast _ _ (by omega)
  have hfvlt : t.splitFeatures[node] < (f.length : Int) := by
    rw [hflen]
    exact hfin
  have hvi : goIdx f (t.splitFeatures[node]) =
      some (f[(t.splitFeatures[node]).toNat]) :=
    goIdx_pos _ _ hfi0 hfvlt
  rw [featValOkForNode, hdtg, hsfg] at hvalOk
  dsimp only at hvalOk
  rw [hvi] at hvalOk
  unfold predictStep
  rw [hsfi]
  simp only [Option.bind_eq_bind, Option.some_bind]
  rw [hvi]
  simp only [Option.bind_eq_bind, Option.some_bind]
  rw [hdti]
  simp only [Option.bind_eq_bind, Option.some_bind]
  cases hnan : (f[(t.splitFeatures[node]).toNat]).isNaN
  · simp only [Bool.false_eq_true, if_false]
    by_cases hcat1 : t.decisionTypes[node] &&& 1 ≠ 0
    · rw [if_pos hcat1]
      rw [if_pos hcat1] at hcatOk
      rw [if_pos hcat1] at hvalOk
      -- the feature value must be finite with truncation above -32
      cases hval : f[(t.splitFeatures[node]).toNat] with
      | nan => rw [hval] at hnan; exact absurd hnan (by simp [GFloat.isNaN])
      | inf b => rw [hval] at hvalOk; exact absurd hvalOk (by simp)
      | fin q =>
        rw [hval] at hvalOk
        dsimp only at hvalOk
        simp only [decide_eq_true_eq] at hvalOk
        simp only [floatToInt, Option.bind_eq_bind, Option.some_bind]
        rw [hthi]
        simp only [Option.bind_eq_bind, Option.some_bind]
        rw [catNodeOk, hthg] at hcatOk
        cases hth : t.thresholds[node] with
        | nan => rw [hth] at hcatOk; exact absurd hcatOk (by simp)
        | inf b => rw [hth] at hcatOk; exact absurd hcatOk (by simp)
        | fin thrq =>
          rw [hth] at hcatOk
          simp only [Bool.and_eq_true, decide_eq_true_eq] at hcatOk
          obtain ⟨hci0, hbnds⟩ := hcatOk
          cases hbs : goIdx t.catBoundaries (qtrunc thrq) with
          | none => rw [hbs] at hbnds; exact absurd hbnds (by simp)
          | some s =>
            cases hbe : goIdx t.catBoundaries (qtrunc thrq + 1) with
            | none => rw [hbs, hbe] at hbnds; exact absurd hbnds (by simp)
            | some e =>
              rw [hbs, hbe] at hbnds
              simp only [Bool.and_eq_true, decide_eq_true_eq] at hbnds
              obtain ⟨⟨hs0, hse⟩, hel⟩ := hbnds
              simp only [floatToInt, Option.bind_eq_bind, Option.some_bind]
              rw [hbs]
              simp only [Option.bind_eq_bind, Option.some_bind]
              rw [hbe]
              simp only [Option.bind_eq_bind, Option.some_bind]
              rw [goSlice, if_pos ⟨hs0, hse, hel⟩]
              simp only [Option.bind_eq_bind, Option.some_bind]
              obtain ⟨b, hb⟩ := isCategoryInBitset_isSome (qtrunc q) hvalOk
                ((t.catThresholds.drop s.toNat).take (e - s).toNat)
              rw [hb]
              simp only [Option.bind_eq_bind, Option.some_bind]
              cases b
              · simp only [Bool.false_eq_true, if_false]
                rw [hrci]
                exact ⟨_, rfl, hcr⟩
              · simp only [if_true]
                rw [hlci]
                exact ⟨_, rfl, hcl⟩
    · rw [if_neg hcat1]
      rw [hthi]
      simp only [Option.bind_eq_bind, Option.some_bind]
      cases hg : gle (f[(t.splitFeatures[node]).toNat])
          (t.thresholds[node])
      · simp only [Bool.false_eq_true, if_false]
        rw [hrci]
        exact ⟨_, rfl, hcr⟩
      · simp only [if_true]
        rw [hlci]
        exact ⟨_, rfl, hcl⟩
  · simp only [if_true, Option.bind_eq_bind, Option.some_bind]
    cases hd : decide (t.decisionTypes[node] &&& 2 ≠ 0)
    · simp only [Bool.false_eq_true, if_false]
      rw [hrci]
      exact ⟨_, rfl, hcr⟩
    · simp only [if_true]
      rw [hlci]
      exact ⟨_, rfl, hcl⟩

/-- On a structurally valid tree, the traversal strictly advances toward
larger node indices and reaches a leaf in range. -/
theorem wf_loop (t : tree) (f : List GFloat) (nFeat : Nat)
    (hwf : wfTree t nFeat = true) (hfo : featOk t f nFeat = true) :
    ∀ (d : Nat) (node : Nat), node < t.splitFeatures.length →
      t.splitFeatures.length - node ≤ d →
      ∃ fuel v, predictLoop t f fuel (node : Int) = some v ∧ v ∈ t.leafValues := by
  have hkey := hwf
  simp only [wfTree, Bool.and_eq_true, decide_eq_true_eq, List.all_eq_true] at hkey
  obtain ⟨⟨⟨⟨⟨⟨hNL, hTH⟩, hDT⟩, hLC⟩, hRC⟩, hLV⟩, hall⟩ := hkey
  intro d
  induction d with
  | zero => intro node h1 h2; omega
  | succ d ih =>
    intro node hnode hd
    obtain ⟨c, hstep, hchild⟩ := wf_step t f nFeat hwf hfo node hnode
    unfold childOk at hchild
    by_cases hc0 : 0 ≤ c
    · rw [if_pos hc0] at hchild
      simp only [Bool.and_eq_true, decide_eq_true_eq] at hchild
      obtain ⟨hgt, hlt⟩ := hchild
      obtain ⟨fuel, v, hl, hm⟩ := ih c.toNat (by omega) (by omega)
      refine ⟨fuel + 1, v, ?_, hm⟩
      simp only [predictLoop]
      rw [if_pos (by omega : (0 : Int) ≤ (node : Int)), hstep]
      dsimp only
      rw [show c = ((c.toNat : Nat) : Int) from (Int.toNat_of_nonneg hc0).symm]
      exact hl
    · rw [if_neg hc0] at hchild
      simp only [decide_eq_true_eq] at hchild
      have hlt2 : -(c + 1) < (t.leafValues.length : Int) := by omega
      have hidx : (-(c + 1)).toNat < t.leafValues.length := by omega
      refine ⟨2, t.leafValues[(-(c + 1)).toNat], ?_, List.getElem_mem hidx⟩
      simp only [predictLoop]
      rw [if_pos (by omega : (0 : Int) ≤ (node : Int)), hstep]
      dsimp only
      rw [if_neg (by omega : ¬(0 : Int) ≤ c)]
      exact goIdx_pos _ _ (by omega) hlt2

/-- C3 (amended): assembly never validates child references, so a
successfully assembled ensemble can hold a cyclic tree on which
`predictLeaf` never terminates (see the counterexample); on every tree
satisfying the §3 structural invariants — in-range forward-pointing
children, leaf references decoding into `[0, leaf_count)`, in-range
categorical slices — with at least one internal node (a single-leaf tree
panics, C1), and every feature vector of the tree's feature count whose
categorical reads avoid the implementation-defined float-to-int cases,
the traversal terminates and returns the value of a leaf whose decoded
index lies within `[0, leaf_count)` (it is an element of `leafValues`). -/
theorem predictLeaf_terminates_on_wf :
    ∀ (t : tree) (f : List GFloat) (nFeat : Nat),
      wfTree t nFeat = true → featOk t f nFeat = true →
      0 < t.splitFeatures.length →
      ∃ fuel v, predictLeafFuel t f fuel = some v ∧ v ∈ t.leafValues := by
  intro t f nFeat hwf hfo hpos
  obtain ⟨fuel, v, hl, hm⟩ :=
    wf_loop t f nFeat hwf hfo t.splitFeatures.length 0 hpos (by omega)
  exact ⟨fuel, v, by simpa [predictLeafFuel] using hl, hm⟩

/-- C3 witness: the amended theorem applied to the concrete two-leaf
scenario tree. -/
theorem predictLeaf_terminates_on_wf_witness :
    ∃ fuel v, predictLeafFuel consistentTree [GFloat.fin ⟨3, 10⟩] fuel = some v ∧
      v ∈ consistentTree.leafValues :=
  predictLeaf_terminates_on_wf consistentTree [GFloat.fin ⟨3, 10⟩] 1
    (by decide) (by decide) (by decide)
